import Mathlib

/-!
Verification of the JSON shape-transformation routines of `src/json.py`
(`make_empty`, `flatten_dict`, `unflatten_dict`, `clean_json`).

Python values that can appear in a decoded JSON document are embedded as the
inductive type `JsonValue` below; Python strings are embedded as `List Char`
(written `PyStr`), restricted to the ASCII behaviour of the string methods the
source uses (`isdigit`, `lower`, `startswith`, `endswith`, `replace`, `split`).
Python dictionaries are embedded as insertion-ordered association lists; the
source never relies on key hashing, only on iteration order, membership,
lookup and insert-or-assign, all of which are modelled on the association
list.  Fallible operations (`float(...)`, subscripting a non-dict) are
embedded with `Option`.
-/

/-- Embedding of a Python `str`: its list of characters. -/
abbrev PyStr := List Char

/-- Embedding of a decoded JSON value (`None`, `bool`, `int`, `float`, `str`,
`list`, `dict` with string keys, in the source's order of interest).  Python
floats are represented exactly as rationals; none of the verified routines
performs float arithmetic, so binary rounding is irrelevant here. -/
inductive JsonValue where
  | null
  | bool (b : Bool)
  | int (n : Int)
  | float (q : Rat)
  | str (s : PyStr)
  | list (xs : List JsonValue)
  | obj (kvs : List (PyStr × JsonValue))

/-- Shorthand for the embedding of a Python dict of JSON values. -/
abbrev JsonDict := List (PyStr × JsonValue)

mutual
/-- Boolean structural equality on `JsonValue` (Python `==` restricted to the
comparisons the source performs, which never cross kinds that can be equal). -/
def beqV : JsonValue → JsonValue → Bool
  | .null, .null => true
  | .bool a, .bool b => a = b
  | .int a, .int b => a = b
  | .float a, .float b => a = b
  | .str a, .str b => a = b
  | .list a, .list b => beqL a b
  | .obj a, .obj b => beqO a b
  | _, _ => false
  termination_by structural x => x
/-- Boolean structural equality on lists of `JsonValue`. -/
def beqL : List JsonValue → List JsonValue → Bool
  | [], [] => true
  | a :: as, b :: bs => beqV a b && beqL as bs
  | _, _ => false
  termination_by structural x => x
/-- Boolean structural equality on association lists of `JsonValue`. -/
def beqO : JsonDict → JsonDict → Bool
  | [], [] => true
  | (k, a) :: as, (k2, b) :: bs => k = k2 && beqV a b && beqO as bs
  | _, _ => false
  termination_by structural x => x
end

mutual
theorem beqV_iff : ∀ (a b : JsonValue), beqV a b = true ↔ a = b
  | .null, b => by cases b <;> simp [beqV]
  | .bool x, b => by cases b <;> simp [beqV]
  | .int x, b => by cases b <;> simp [beqV]
  | .float x, b => by cases b <;> simp [beqV]
  | .str x, b => by cases b <;> simp [beqV]
  | .list xs, b => by
      cases b <;> simp [beqV]
      exact beqL_iff xs _
  | .obj kvs, b => by
      cases b <;> simp [beqV]
      exact beqO_iff kvs _

theorem beqL_iff : ∀ (a b : List JsonValue), beqL a b = true ↔ a = b
  | [], b => by cases b <;> simp [beqL]
  | x :: xs, b => by
      cases b with
      | nil => simp [beqL]
      | cons y ys => simp [beqL, beqV_iff x y, beqL_iff xs ys]

theorem beqO_iff : ∀ (a b : JsonDict), beqO a b = true ↔ a = b
  | [], b => by cases b <;> simp [beqO]
  | (k, x) :: xs, b => by
      cases b with
      | nil => simp [beqO]
      | cons y ys =>
          obtain ⟨k2, y⟩ := y
          simp [beqO, beqV_iff x y, beqO_iff xs ys, and_assoc]
end

instance : DecidableEq JsonValue :=
  fun a b => decidable_of_iff (beqV a b = true) (beqV_iff a b)

example : (JsonValue.obj [(['a'], .int 3)] = JsonValue.obj [(['a'], .int 3)]) := by decide
example : (JsonValue.obj [(['a'], .int 3)] ≠ JsonValue.obj [(['a'], .int 4)]) := by decide

/-! ### Python string primitives used by the source (ASCII fragment) -/

/-- Test for an ASCII decimal digit; the fragment of Python `str.isdigit`
exercised by this program (no Unicode digit categories). -/
def isDigitChar (c : Char) : Bool := '0' ≤ c && c ≤ '9'

/-- Embedding of Python `s.isdigit()`: nonempty and all digits. -/
def pyIsDigit (s : PyStr) : Bool := !s.isEmpty && s.all isDigitChar

/-- Embedding of Python `s.lower()` (ASCII). -/
def pyLower (s : PyStr) : PyStr := s.map Char.toLower

/-- Embedding of Python `s.startswith(c)` for a one-character prefix. -/
def pyStartsWith (c : Char) : PyStr → Bool
  | c0 :: _ => c0 = c
  | [] => false

/-- Embedding of Python `s.endswith(c)` for a one-character suffix. -/
def pyEndsWith (c : Char) (s : PyStr) : Bool :=
  match s.getLast? with
  | some c0 => c0 = c
  | none => false

/-- Embedding of Python `s.replace('.', '')`. -/
def removeDots (s : PyStr) : PyStr := s.filter (fun c => c ≠ '.')

/-- Numeric value of a digit string (the core of Python `int(s)` on an
`isdigit` string). -/
def digitsToNat (s : PyStr) : Nat :=
  s.foldl (fun n c => 10 * n + (c.toNat - '0'.toNat)) 0

/-- Helper for `splitOnDot`: accumulates the current chunk (reversed). -/
def splitOnDotAux : PyStr → PyStr → List PyStr
  | [], acc => [acc.reverse]
  | c :: rest, acc =>
      if c = '.' then acc.reverse :: splitOnDotAux rest []
      else splitOnDotAux rest (c :: acc)

/-- Embedding of Python `key.split('.')` (the only separator the program
uses): `""` splits to `[""]`, and consecutive dots yield empty chunks. -/
def splitOnDot (s : PyStr) : List PyStr := splitOnDotAux s []

/-- Joins path components with `'.'`; the left inverse of `splitOnDot` on
dot-free components (how `flatten_dict` assembles its keys). -/
def joinParts : List PyStr → PyStr
  | [] => []
  | [p] => p
  | p :: ps => p ++ '.' :: joinParts ps

example : splitOnDot ('a' :: 'b' :: '.' :: 'c' :: []) = [['a', 'b'], ['c']] := by decide
example : splitOnDot [] = [[]] := by decide
example : joinParts [['a'], [], ['b']] = ['a', '.', '.', 'b'] := by decide

/-! ### make_empty (src/json.py lines 314-326)

Python dispatches on `isinstance` in the order `dict`, `list`, `str`,
`(int, float)`, `bool`, else.  Because `bool` is a subclass of `int`,
`isinstance(obj, (int, float))` is True for booleans, so the
`isinstance(obj, bool)` branch on line 323 is unreachable and booleans are
mapped to the integer `0`, not to `False`. -/

mutual
/-- Embedding of `make_empty` from `src/json.py`.  The `.bool` case returns
`int 0` because Python's `(int, float)` isinstance test catches booleans
first; the source's `bool → False` branch is dead code. -/
def make_empty : JsonValue → JsonValue
  | .obj kvs => .obj (makeEmptyPairs kvs)
  | .list _ => .list []
  | .str _ => .str []
  | .int _ => .int 0
  | .float _ => .int 0
  | .bool _ => .int 0
  | .null => .null
  termination_by structural x => x
/-- Entry-wise recursion of `make_empty` over a dict (the comprehension
`{k: make_empty(v) for k, v in obj.items()}`). -/
def makeEmptyPairs : JsonDict → JsonDict
  | [] => []
  | (k, v) :: rest => (k, make_empty v) :: makeEmptyPairs rest
  termination_by structural x => x
end

/-! ### clean_json (src/json.py lines 80-105) -/

/-- Python `value not in [None, "", "null", "None"]`, negated: the scalar
drop test of `clean_json` line 102.  Membership uses `==`, and `None`, `""`,
`"null"`, `"None"` are only `==`-equal to values of their own kind, so the
test is structural. -/
def isDroppedScalar : JsonValue → Bool
  | .null => true
  | .str s => s.isEmpty || s = ('n' :: 'u' :: 'l' :: 'l' :: []) || s = ('N' :: 'o' :: 'n' :: 'e' :: [])
  | _ => false

/-- Python `item in [None, "", []]`: the list-item drop test of `clean_json`
line 99 (applied to the item before any recursion). -/
def isDroppedItem : JsonValue → Bool
  | .null => true
  | .str s => s.isEmpty
  | .list xs => xs.isEmpty
  | _ => false

mutual
/-- Action of `clean_json` on one dict entry value: `none` when the entry is
dropped, `some c` when it is kept with value `c`.  Mirrors the
`if isinstance(value, dict) / elif isinstance(value, list) / elif value not in
[...]` chain of lines 93-103. -/
def cleanEntry : JsonValue → Option JsonValue
  | .obj m =>
      let c := cleanPairs m
      if c.isEmpty then none else some (.obj c)
  | .list xs =>
      let c := cleanItems xs
      if c.isEmpty then none else some (.list c)
  | v => if isDroppedScalar v then none else some v
  termination_by structural x => x
/-- Transformation applied to a kept list item on line 98:
`clean_json(item) if isinstance(item, dict) else item`. -/
def cleanItem : JsonValue → JsonValue
  | .obj m => .obj (cleanPairs m)
  | v => v
  termination_by structural x => x
/-- Recursion of `clean_json` over the entries of a dict (lines 91-103). -/
def cleanPairs : JsonDict → JsonDict
  | [] => []
  | (k, v) :: rest =>
      match cleanEntry v with
      | none => cleanPairs rest
      | some c => (k, c) :: cleanPairs rest
  termination_by structural x => x
/-- The list comprehension of lines 98-99: drop items `in [None, "", []]`,
then clean dict items. -/
def cleanItems : List JsonValue → List JsonValue
  | [] => []
  | item :: rest =>
      if isDroppedItem item then cleanItems rest
      else cleanItem item :: cleanItems rest
  termination_by structural x => x
end

/-- Embedding of `clean_json` from `src/json.py`: dict inputs are cleaned
entry by entry; any non-dict input is returned unchanged (line 105). -/
def clean_json : JsonValue → JsonValue
  | .obj kvs => .obj (cleanPairs kvs)
  | v => v

example :
    clean_json (.obj [(['a'], .str []), (['b'], .list [.int 1, .null, .str []]),
      (['c'], .obj [(['d'], .null)]), (['e'], .list [])]) =
    .obj [(['b'], .list [.int 1])] := by decide

/-! ### prune_empty, Variant A (spec §4.3; not implemented in src/) -/

/-- Drop test for a mapping entry under Variant A: dropped when the pruned
value is `None`, the empty string, or an empty mapping (an empty list is
kept). -/
def isDroppedAEntry : JsonValue → Bool
  | .null => true
  | .str s => s.isEmpty
  | .obj m => m.isEmpty
  | _ => false

/-- Drop test for a list item under Variant A: dropped when the pruned item
is `None`, the empty string, or an empty list. -/
def isDroppedAItem : JsonValue → Bool
  | .null => true
  | .str s => s.isEmpty
  | .list xs => xs.isEmpty
  | _ => false

mutual
/-- Modelled from the spec: Variant A of `prune_empty` (spec §4.3).  The
repository is described as three near-duplicate files, but only one is under
`src/`, and its `clean_json` is Variant B; the Variant A pruner is modelled
from the spec's words: every value is pruned recursively; a mapping entry is
dropped if its pruned value is `None`, the empty string, or an empty mapping
(an explicitly empty list is kept); a list is pruned by dropping items that
are `None`, empty string, or an empty list after recursion. -/
def cleanA : JsonValue → JsonValue
  | .obj m => .obj (cleanAPairs m)
  | .list xs => .list (cleanAItems xs)
  | v => v
  termination_by structural x => x
/-- Modelled from the spec: Variant A pruning of a mapping's entries. -/
def cleanAPairs : JsonDict → JsonDict
  | [] => []
  | (k, v) :: rest =>
      let c := cleanA v
      if isDroppedAEntry c then cleanAPairs rest else (k, c) :: cleanAPairs rest
  termination_by structural x => x
/-- Modelled from the spec: Variant A pruning of a list's items. -/
def cleanAItems : List JsonValue → List JsonValue
  | [] => []
  | item :: rest =>
      let c := cleanA item
      if isDroppedAItem c then cleanAItems rest else c :: cleanAItems rest
  termination_by structural x => x
end

/-! ### json.loads and str(), as used by flatten/unflatten

`flatten_dict` stringifies list values with `str(v)` (line 32), and
`unflatten_dict` tries `json.loads(value)` on bracket-delimited strings
(line 62), falling back to the string itself on any parse error.  Both are
Python builtins; they are modelled here concretely.  No claim exercises
their internals: the verified claims either exclude list values and
bracket-delimited strings by hypothesis or never reach these branches. -/

/-- Whitespace skipped by the JSON grammar. -/
def skipWsL (s : PyStr) : PyStr :=
  s.dropWhile (fun c => c = ' ' || c = '\n' || c = '\t' || c = '\r')

/-- Digit run at the front of a string, with the rest. -/
def takeDigits (s : PyStr) : PyStr × PyStr :=
  (s.takeWhile isDigitChar, s.dropWhile isDigitChar)

/-- Parses an unsigned JSON number (integer, or integer-dot-fraction). -/
def loadsNum (s : PyStr) : Option (JsonValue × PyStr) :=
  let (ds, r) := takeDigits s
  if ds.isEmpty then none
  else
    match r with
    | '.' :: r2 =>
        let (fs, r3) := takeDigits r2
        if fs.isEmpty then none
        else some (.float ((digitsToNat (ds ++ fs) : Rat) / ((10 : Rat) ^ fs.length)), r3)
    | _ => some (.int (Int.ofNat (digitsToNat ds)), r)

/-- Negates a parsed JSON number (for a leading minus sign). -/
def negNum : JsonValue → JsonValue
  | .int n => .int (-n)
  | .float q => .float (-q)
  | v => v

mutual
/-- Modelled: the value grammar of Python `json.loads`, restricted to the
constructs without escape sequences or exponent notation (fuel-based
recursive descent; fuel `length + 1` always suffices). -/
def loadsVal (fuel : Nat) (s : PyStr) : Option (JsonValue × PyStr) :=
  match fuel with
  | 0 => none
  | fuel + 1 =>
    match skipWsL s with
    | 'n' :: 'u' :: 'l' :: 'l' :: r => some (.null, r)
    | 't' :: 'r' :: 'u' :: 'e' :: r => some (.bool true, r)
    | 'f' :: 'a' :: 'l' :: 's' :: 'e' :: r => some (.bool false, r)
    | '"' :: r =>
        let (cs, r2) := r.span (fun c => c ≠ '"')
        (match r2 with
         | '"' :: r3 => some (.str cs, r3)
         | _ => none)
    | '[' :: r =>
        (match skipWsL r with
         | ']' :: r2 => some (.list [], r2)
         | r2 => (loadsElems fuel r2).map (fun p => (.list p.1, p.2)))
    | '{' :: r =>
        (match skipWsL r with
         | '}' :: r2 => some (.obj [], r2)
         | r2 => (loadsMembers fuel r2).map (fun p => (.obj p.1, p.2)))
    | '-' :: r => (loadsNum r).map (fun p => (negNum p.1, p.2))
    | r => if pyStartsWith '[' r = false && (r.head?.elim false isDigitChar) then
             loadsNum r
           else none
/-- Modelled: one-or-more comma-separated JSON array elements. -/
def loadsElems (fuel : Nat) (s : PyStr) : Option (List JsonValue × PyStr) :=
  match fuel with
  | 0 => none
  | fuel + 1 =>
    match loadsVal fuel s with
    | none => none
    | some (v, r) =>
        match skipWsL r with
        | ',' :: r2 => (loadsElems fuel r2).map (fun p => (v :: p.1, p.2))
        | ']' :: r2 => some ([v], r2)
        | _ => none
/-- Modelled: one-or-more comma-separated JSON object members. -/
def loadsMembers (fuel : Nat) (s : PyStr) : Option (JsonDict × PyStr) :=
  match fuel with
  | 0 => none
  | fuel + 1 =>
    match skipWsL s with
    | '"' :: r =>
        let (cs, r2) := r.span (fun c => c ≠ '"')
        (match r2 with
         | '"' :: r3 =>
             (match skipWsL r3 with
              | ':' :: r4 =>
                  (match loadsVal fuel r4 with
                   | none => none
                   | some (v, r5) =>
                       match skipWsL r5 with
                       | ',' :: r6 => (loadsMembers fuel r6).map (fun p => ((cs, v) :: p.1, p.2))
                       | '}' :: r6 => some ([(cs, v)], r6)
                       | _ => none)
              | _ => none)
         | _ => none)
    | _ => none
end

/-- Modelled: Python `json.loads` on a whole string; `none` is a
`JSONDecodeError`. -/
def json_loads (s : PyStr) : Option JsonValue :=
  match loadsVal (s.length + 1) s with
  | some (v, r) => if (skipWsL r).isEmpty then some v else none
  | none => none

example : json_loads ('[' :: '1' :: ',' :: ' ' :: '2' :: ']' :: []) =
    some (.list [.int 1, .int 2]) := by decide
example : json_loads ('[' :: 'x' :: ']' :: []) = none := by decide

/-- Decimal digits of the fractional part `num/den` (long division, at most
`fuel` digits, stopping at a zero remainder). -/
def fracDigits : Nat → Nat → Nat → PyStr
  | 0, _, _ => []
  | _ + 1, 0, _ => []
  | fuel + 1, num, den =>
      Char.ofNat ('0'.toNat + num * 10 / den) :: fracDigits fuel (num * 10 % den) den

/-- Modelled: Python `str()` of an int. -/
def intRepr (n : Int) : PyStr :=
  if n < 0 then '-' :: Nat.toDigits 10 n.natAbs else Nat.toDigits 10 n.natAbs

/-- Modelled: Python `str()` of a float, as the decimal expansion of the
rational embedding (at most 17 fractional digits; CPython's shortest-repr
rounding is not modelled — no claim evaluates float formatting). -/
def floatRepr (q : Rat) : PyStr :=
  let sign : PyStr := if q < 0 then ['-'] else []
  let n := q.num.natAbs
  let d := q.den
  let fr := fracDigits 17 (n % d) d
  sign ++ Nat.toDigits 10 (n / d) ++ '.' :: (if fr.isEmpty then ['0'] else fr)

mutual
/-- Modelled: Python `str()` of a decoded JSON value, as used by
`flatten_dict` line 32 on list values.  Strings are quoted with `'` without
escaping (no claim evaluates the repr of a string containing a quote). -/
def pyRepr : JsonValue → PyStr
  | .null => 'N' :: 'o' :: 'n' :: 'e' :: []
  | .bool true => 'T' :: 'r' :: 'u' :: 'e' :: []
  | .bool false => 'F' :: 'a' :: 'l' :: 's' :: 'e' :: []
  | .int n => intRepr n
  | .float q => floatRepr q
  | .str s => '\x27' :: s ++ '\x27' :: []
  | .list xs => '[' :: pyReprItems xs ++ ']' :: []
  | .obj kvs => '\x7b' :: pyReprPairs kvs ++ '\x7d' :: []
  termination_by structural x => x
/-- Comma-separated reprs of list items. -/
def pyReprItems : List JsonValue → PyStr
  | [] => []
  | [x] => pyRepr x
  | x :: rest => pyRepr x ++ ',' :: ' ' :: pyReprItems rest
  termination_by structural x => x
/-- Comma-separated reprs of dict entries. -/
def pyReprPairs : JsonDict → PyStr
  | [] => []
  | [(k, v)] => '\x27' :: k ++ '\x27' :: ':' :: ' ' :: pyRepr v
  | (k, v) :: rest => '\x27' :: k ++ '\x27' :: ':' :: ' ' :: pyRepr v ++ ',' :: ' ' :: pyReprPairs rest
  termination_by structural x => x
end

/-! ### Dict primitives (insertion-ordered association lists) -/

/-- Lookup in a Python dict: `d[k]` / `k in d`. -/
def assocLookup : JsonDict → PyStr → Option JsonValue
  | [], _ => none
  | (k0, v) :: rest, k => if k0 = k then some v else assocLookup rest k

/-- Insert-or-assign in a Python dict: `d[k] = v`.  An existing key keeps its
position and gets the new value; a new key is appended at the end. -/
def assocSet : JsonDict → PyStr → JsonValue → JsonDict
  | [], k, v => [(k, v)]
  | (k0, v0) :: rest, k, v =>
      if k0 = k then (k0, v) :: rest else (k0, v0) :: assocSet rest k v

/-- Python `dict(items)`: items inserted in order into a fresh dict (later
duplicates overwrite in place). -/
def dictOfItems (items : JsonDict) : JsonDict :=
  items.foldl (fun d kv => assocSet d kv.1 kv.2) []

/-! ### flatten_dict (src/json.py lines 13-35), at the default separator '.'
(the only separator the program uses). -/

mutual
/-- Items contributed by a single entry of value `v` whose assembled key is
`newKey` (the `if isinstance(v, dict) / elif isinstance(v, list) / else`
chain of lines 28-34): a dict value contributes the items of its own
`flatten_dict`, a list value one stringified item, anything else itself. -/
def flattenEntry : JsonValue → PyStr → JsonDict
  | .obj m, newKey => dictOfItems (flattenItems m newKey)
  | .list xs, newKey => [(newKey, .str (pyRepr (.list xs)))]
  | v, newKey => [(newKey, v)]
  termination_by structural x => x
/-- The `items` accumulation loop of lines 25-34: each key `k` is extended to
`parent_key + '.' + k` when `parent_key` is nonempty (Python truthiness of
the string). -/
def flattenItems : JsonDict → PyStr → JsonDict
  | [], _ => []
  | (k, v) :: rest, parentKey =>
      let newKey := if parentKey.isEmpty then k else parentKey ++ '.' :: k
      flattenEntry v newKey ++ flattenItems rest parentKey
  termination_by structural x => x
end

/-- Embedding of `flatten_dict` from `src/json.py` (separator fixed at the
default `'.'`): the accumulated items, collected with `dict(items)`. -/
def flatten_dict (d : JsonDict) (parentKey : PyStr) : JsonDict :=
  dictOfItems (flattenItems d parentKey)

example :
    flatten_dict [(['a'], .obj [(['b'], .int 1), (['c'], .str ['x'])]), (['d'], .bool true)] [] =
    [(['a', '.', 'b'], .int 1), (['a', '.', 'c'], .str ['x']), (['d'], .bool true)] := by decide

/-! ### unflatten_dict (src/json.py lines 37-78), at the default separator -/

/-- Modelled: CPython `float(s)` restricted to strings of ASCII digits and
periods — the only strings reaching the call on line 69, whose guard
requires at least one `'.'` and `replace('.', '').isdigit()`.  On that
character set `float` succeeds exactly when there is at most one period and
at least one digit; signs, exponents, whitespace, `inf`/`nan` cannot occur
here and are not modelled.  `none` is a raised `ValueError`. -/
def pyFloatParse (s : PyStr) : Option JsonValue :=
  if !s.isEmpty && s.all (fun c => isDigitChar c || c = '.') &&
      s.count '.' ≤ 1 && !(removeDots s).isEmpty then
    let intPart := s.takeWhile (fun c => c ≠ '.')
    let frac := (s.dropWhile (fun c => c ≠ '.')).tail
    some (.float ((digitsToNat (intPart ++ frac) : Rat) / ((10 : Rat) ^ frac.length)))
  else none

/-- Embedding of the type-coercion chain applied by `unflatten_dict` to each
value (lines 57-76): strings that look like bracket-delimited lists are
parsed as JSON (keeping the string on a parse error, lines 61-64), all-digit
strings become ints (line 67), strings with a `'.'` whose other characters
are digits are passed to `float` (line 69, which may raise), `true`/`false`
case-insensitively become booleans (line 72), anything else stays; non-string
values pass through unchanged (line 76). -/
def coerceValue : JsonValue → Option JsonValue
  | .str s =>
      if pyStartsWith '[' s && pyEndsWith ']' s then
        some (match json_loads s with
          | some v => v
          | none => .str s)
      else if pyIsDigit s then some (.int (Int.ofNat (digitsToNat s)))
      else if s.contains '.' && pyIsDigit (removeDots s) then pyFloatParse s
      else if pyLower s = ('t' :: 'r' :: 'u' :: 'e' :: []) ||
          pyLower s = ('f' :: 'a' :: 'l' :: 's' :: 'e' :: []) then
        some (.bool (pyLower s = ('t' :: 'r' :: 'u' :: 'e' :: [])))
      else some (.str s)
  | v => some v

/-- The path walk of `unflatten_dict` lines 51-55 plus the leaf assignment:
descends along `path`, materialising missing intermediate dicts
(`if k not in d: d[k] = {}`), and assigns the leaf.  Reaching an existing
non-dict value on the way is a raised `TypeError` (`none`): Python fails on
it either at the next `in`-test, the next subscript, or the final item
assignment. -/
def setPath : JsonDict → List PyStr → JsonValue → Option JsonDict
  | _, [], _ => none
  | d, [k], v => some (assocSet d k v)
  | d, k :: rest, v =>
      match assocLookup d k with
      | some (.obj sub) => (setPath sub rest v).map (fun sub2 => assocSet d k (.obj sub2))
      | some _ => none
      | none => (setPath [] rest v).map (fun sub2 => assocSet d k (.obj sub2))

/-- The main loop of `unflatten_dict` (lines 49-76) over the flat items, in
insertion order.  Python walks the key path before coercing the value; both
can raise, the exception propagates either way, and `result` is discarded,
so the order of the two failure checks is observationally irrelevant and
they are sequenced coercion-first here. -/
def unflattenSteps : List (PyStr × JsonValue) → JsonDict → Option JsonDict
  | [], acc => some acc
  | (key, value) :: rest, acc =>
      match coerceValue value with
      | none => none
      | some v =>
          match setPath acc (splitOnDot key) v with
          | none => none
          | some acc2 => unflattenSteps rest acc2

/-- Embedding of `unflatten_dict` from `src/json.py` (separator fixed at the
default `'.'`); `none` is a raised exception. -/
def unflatten_dict (flat : List (PyStr × JsonValue)) : Option JsonDict :=
  unflattenSteps flat []

example :
    unflatten_dict [(['a', '.', 'b'], .int 1), (['a', '.', 'c'], .str ['x']), (['d'], .bool true)] =
    some [(['a'], .obj [(['b'], .int 1), (['c'], .str ['x'])]), (['d'], .bool true)] := by decide
example :
    unflatten_dict [(['k'], .str ('1' :: '.' :: '2' :: '.' :: '3' :: []))] = none := by decide
example : coerceValue (.str ('4' :: '2' :: [])) = some (.int 42) := by decide
example : (coerceValue (.str ('1' :: '.' :: '5' :: []))).isSome = true := by decide
example : coerceValue (.str ('T' :: 'r' :: 'u' :: 'e' :: [])) = some (.bool true) := by decide

/-! ### Spec-side characterisations used by the claims -/

/-- Kind test used to state where `clean_json` actually recurses. -/
def isObjB : JsonValue → Bool
  | .obj _ => true
  | _ => false

/-- Claim-side test (C2): the value is a nested mapping or list that becomes
empty after recursive pruning (the pruning being the one `clean_json` itself
applies at that position: `clean_json` for a nested mapping, the item filter
`cleanItems` for a list value). -/
def entryEmptyAfterPrune : JsonValue → Bool
  | .obj m => clean_json (.obj m) = JsonValue.obj []
  | .list xs => cleanItems xs = []
  | _ => false

/-- Claim-side drop condition (C2, Variant B): the entry value is `None`, the
empty string, the literal strings `"null"`/`"None"`, or a nested mapping or
list that prunes to empty. -/
def dropEntrySpec (v : JsonValue) : Bool :=
  v = .null || v = .str [] || v = .str ('n' :: 'u' :: 'l' :: 'l' :: []) ||
    v = .str ('N' :: 'o' :: 'n' :: 'e' :: []) || entryEmptyAfterPrune v

/-- Claim-side pruned value of a kept entry (C2): nested mappings and lists
are recursively pruned, everything else is kept as is. -/
def prunedValueSpec : JsonValue → JsonValue
  | .obj m => .obj (cleanPairs m)
  | .list xs => .list (cleanItems xs)
  | v => v

/-- Claim-side per-entry action (C2): drop exactly under `dropEntrySpec`,
otherwise keep the key with the pruned value. -/
def cleanEntrySpec (e : PyStr × JsonValue) : Option (PyStr × JsonValue) :=
  if dropEntrySpec e.2 then none else some (e.1, prunedValueSpec e.2)

/-! ### C1 — make_empty (code bug: booleans) -/

/-- C1: the claim says `make_empty` maps a boolean to `False` (the 0/false
variant); the code maps the boolean `True` to the integer `0`, because
`isinstance(True, (int, float))` holds (bool subclasses int) and the
`isinstance(obj, bool)` branch is dead.  This theorem evaluates the embedded
code at the failing input. -/
theorem make_empty_bool_becomes_zero :
    make_empty (JsonValue.bool true) = JsonValue.int 0 ∧
    JsonValue.int 0 ≠ JsonValue.bool false := by decide

/-- Rest of C1 at the non-boolean kinds, for the record: mappings keep their
keys with recursively emptied values, lists become `[]`, strings `""`,
numbers `0`, `None` stays `None`; total by construction. -/
theorem make_empty_nonbool_shape :
    (∀ kvs, make_empty (JsonValue.obj kvs) = .obj (makeEmptyPairs kvs)) ∧
    (∀ k v rest, makeEmptyPairs ((k, v) :: rest) = (k, make_empty v) :: makeEmptyPairs rest) ∧
    (∀ xs, make_empty (JsonValue.list xs) = .list []) ∧
    (∀ s, make_empty (JsonValue.str s) = .str []) ∧
    (∀ n, make_empty (JsonValue.int n) = .int 0) ∧
    (∀ q, make_empty (JsonValue.float q) = .int 0) ∧
    make_empty JsonValue.null = .null := by
  refine ⟨fun _ => rfl, fun _ _ _ => rfl, fun _ => rfl, fun _ => rfl, fun _ => rfl,
    fun _ => rfl, rfl⟩

/-! ### C2 — clean_json drops exactly the empty entries (Variant B) -/

/-- The per-entry action of the code equals the claim-side action. -/
theorem cleanEntry_eq_spec (v : JsonValue) :
    cleanEntry v = if dropEntrySpec v then none else some (prunedValueSpec v) := by
  cases v with
  | str s =>
      by_cases h0 : s = [] <;>
        by_cases h1 : s = ('n' :: 'u' :: 'l' :: 'l' :: []) <;>
          by_cases h2 : s = ('N' :: 'o' :: 'n' :: 'e' :: []) <;>
            simp [cleanEntry, isDroppedScalar, dropEntrySpec, entryEmptyAfterPrune,
              prunedValueSpec, h0, h1, h2, List.isEmpty_iff]
  | list xs =>
      by_cases h : cleanItems xs = [] <;>
        simp [cleanEntry, dropEntrySpec, entryEmptyAfterPrune, prunedValueSpec, h,
          List.isEmpty_iff]
  | obj m =>
      by_cases h : cleanPairs m = [] <;>
        simp [cleanEntry, dropEntrySpec, entryEmptyAfterPrune, prunedValueSpec, clean_json, h,
          List.isEmpty_iff]
  | _ =>
      simp [cleanEntry, isDroppedScalar, dropEntrySpec, entryEmptyAfterPrune, prunedValueSpec]

/-- Entry recursion of `clean_json` as a filterMap of the claim-side action. -/
theorem cleanPairs_eq_filterMap :
    ∀ kvs : JsonDict, cleanPairs kvs = kvs.filterMap cleanEntrySpec
  | [] => rfl
  | (k, v) :: rest => by
      rw [cleanPairs, List.filterMap_cons, cleanPairs_eq_filterMap rest, cleanEntry_eq_spec]
      by_cases hd : dropEntrySpec v <;> simp [cleanEntrySpec, hd]

/-- C2: for every mapping input, `clean_json` (Variant B) drops an entry
exactly when its value is `None`, `""`, `"null"`, `"None"`, or a nested
mapping or list that prunes to empty; all other entries are kept, in order,
with their pruned values. -/
theorem clean_json_drops_exactly_empty_entries (kvs : JsonDict) :
    clean_json (JsonValue.obj kvs) = JsonValue.obj (kvs.filterMap cleanEntrySpec) := by
  rw [clean_json, cleanPairs_eq_filterMap]

/-! ### C6 — prune_empty example under the Variant A policy (spec-modelled) -/

/-- C6: on `{"a": "", "b": [1, null, ""], "c": {"d": null}, "e": []}` the
Variant A pruner returns `{"b": [1], "e": []}`: the explicitly empty list is
kept, the nested mapping pruning to empty is dropped, and the empty-string
and null leaves are dropped. -/
theorem cleanA_variantA_example :
    cleanA (.obj [(['a'], .str []), (['b'], .list [.int 1, .null, .str []]),
      (['c'], .obj [(['d'], .null)]), (['e'], .list [])]) =
    .obj [(['b'], .list [.int 1]), (['e'], .list [])] := by decide

/-! ### C7 — clean_json does not prune non-mapping input (corrected) -/

/-- Counterexample to C7 as stated: on the top-level list `[""]` the code
returns the input unchanged — the empty-string leaf is not removed — whereas
the claim asks for removal at every depth for every `JsonValue`. -/
theorem clean_json_keeps_empty_leaf_in_toplevel_list :
    clean_json (JsonValue.list [JsonValue.str []]) = JsonValue.list [JsonValue.str []] ∧
    JsonValue.list [JsonValue.str []] ≠ JsonValue.list [] := by decide

/-- C7 (amended): `clean_json` prunes only mapping input; every non-mapping
`JsonValue` — including top-level lists — is returned unchanged, with no
leaves removed (line 105 of the source). -/
theorem clean_json_nonmapping_unchanged (v : JsonValue) (h : isObjB v = false) :
    clean_json v = v := by
  cases v <;> first
    | rfl
    | exact absurd h (by simp [isObjB])

/-- Witness for C7 (amended) at a concrete non-mapping value. -/
theorem clean_json_nonmapping_unchanged_witness :
    clean_json (JsonValue.int 5) = JsonValue.int 5 :=
  clean_json_nonmapping_unchanged (JsonValue.int 5) (by decide)

/-! ### C10 — 0, 0.0 and False are never treated as empty -/

/-- C10: `clean_json` preserves, unchanged, every mapping entry and every
list item whose value is the number `0` (or `0.0`) or the boolean `False`:
none of them matches `[None, "", "null", "None"]` or `[None, "", []]`. -/
theorem clean_json_keeps_zero_and_false (v : JsonValue)
    (hz : v = .int 0 ∨ v = .float 0 ∨ v = .bool false) :
    (∀ (kvs : JsonDict) (k : PyStr), (k, v) ∈ kvs → (k, v) ∈ cleanPairs kvs) ∧
    (∀ xs : List JsonValue, v ∈ xs → v ∈ cleanItems xs) := by
  have he : cleanEntry v = some v := by
    rcases hz with rfl | rfl | rfl <;> rfl
  have hdi : isDroppedItem v = false := by
    rcases hz with rfl | rfl | rfl <;> rfl
  have hci : cleanItem v = v := by
    rcases hz with rfl | rfl | rfl <;> rfl
  constructor
  · intro kvs k hk
    induction kvs with
    | nil => cases hk
    | cons e rest ih =>
        obtain ⟨k0, v0⟩ := e
        rw [cleanPairs]
        rcases List.mem_cons.mp hk with hk0 | hk1
        · obtain ⟨hk0l, hk0r⟩ := Prod.mk.injEq .. ▸ hk0
          subst hk0l
          rw [← hk0r, he]
          exact List.mem_cons_self ..
        · cases hcv : cleanEntry v0 with
          | none => exact ih hk1
          | some c => exact List.mem_cons_of_mem _ (ih hk1)
  · intro xs hx
    induction xs with
    | nil => cases hx
    | cons x rest ih =>
        rw [cleanItems]
        rcases List.mem_cons.mp hx with hx0 | hx1
        · subst hx0
          rw [hdi]
          simp only [Bool.false_eq_true, if_false, hci]
          exact List.mem_cons_self ..
        · by_cases hdx : isDroppedItem x = true
          · simp only [hdx, if_true]
            exact ih hx1
          · simp only [Bool.not_eq_true] at hdx
            simp only [hdx, Bool.false_eq_true, if_false]
            exact List.mem_cons_of_mem _ (ih hx1)

/-- Witness for C10: the entry `("k", 0)` survives pruning. -/
theorem clean_json_keeps_zero_and_false_witness :
    (['k'], JsonValue.int 0) ∈ cleanPairs [(['k'], JsonValue.int 0)] :=
  (clean_json_keeps_zero_and_false (JsonValue.int 0) (Or.inl rfl)).1 _ ['k'] (by simp)

/-! ### C9 — unflatten_dict is not total: multi-dot digit strings raise -/

/-- Every character of a string whose non-dot characters are all digits is a
digit or a dot. -/
theorem mem_digit_or_dot {s : PyStr} (hd : pyIsDigit (removeDots s) = true) :
    ∀ c ∈ s, isDigitChar c = true ∨ c = '.' := by
  intro c hc
  by_cases hdot : c = '.'
  · exact Or.inr hdot
  · refine Or.inl ?_
    have hmem : c ∈ removeDots s := by
      refine List.mem_filter.mpr ⟨hc, by simpa using hdot⟩
    have hall := (Bool.and_eq_true .. ▸ hd).2
    exact List.all_eq_true.mp hall c hmem

/-- C9: `unflatten_dict` raises on any string value containing more than one
`'.'` whose non-dot characters are all digits (nonempty, per `isdigit`): the
float branch guard on line 68 admits it and `float(...)` on line 69 raises a
`ValueError`, so no value is returned. -/
theorem unflatten_raises_on_multidot_digits (s : PyStr) (h2 : 2 ≤ s.count '.')
    (hd : pyIsDigit (removeDots s) = true) :
    coerceValue (.str s) = none ∧ unflatten_dict [(['k'], .str s)] = none := by
  have hdot : '.' ∈ s := List.count_pos_iff.mp (Nat.lt_of_lt_of_le Nat.zero_lt_two h2)
  have hch := mem_digit_or_dot hd
  have hstart : pyStartsWith '[' s = false := by
    cases s with
    | nil => cases hdot
    | cons c0 rest =>
        rcases hch c0 (List.mem_cons_self ..) with h | h
        · have : c0 ≠ '[' := by
            intro he
            rw [he] at h
            exact absurd h (by decide)
          simpa [pyStartsWith] using this
        · rw [h]
          simp [pyStartsWith]
  have hdig : pyIsDigit s = false := by
    have : s.all isDigitChar = false := by
      cases hall : s.all isDigitChar
      · rfl
      · have := List.all_eq_true.mp hall '.' hdot
        exact absurd this (by decide)
    simp [pyIsDigit, this]
  have hcont : s.contains '.' = true := by simpa [List.elem_iff] using hdot
  have hfp : pyFloatParse s = none := by
    have : ¬ s.count '.' ≤ 1 := by omega
    simp [pyFloatParse, this]
  have hco : coerceValue (.str s) = none := by
    rw [coerceValue, hstart]
    simp only [Bool.false_and, Bool.false_eq_true, if_false, hdig, hcont, hd, Bool.and_self,
      if_true, hfp]
  refine ⟨hco, ?_⟩
  rw [unflatten_dict, unflattenSteps, hco]

/-- Witness for C9 at the concrete string `"1.2.3"`. -/
theorem unflatten_raises_on_multidot_digits_witness :
    unflatten_dict [(['k'], .str ('1' :: '.' :: '2' :: '.' :: '3' :: []))] = none :=
  (unflatten_raises_on_multidot_digits ('1' :: '.' :: '2' :: '.' :: '3' :: [])
    (by decide) (by decide)).2

/-! ### C5 — the coercion chain of unflatten_dict (corrected) -/

/-- Claim-side coercion chain for string values, as amended: bracket-delimited
strings are parsed as JSON (keeping the string on failure); else all-digit
strings become integers; else a string containing at least one `'.'` whose
remaining characters are digits (nonempty) goes to the float conversion,
which succeeds exactly when the `'.'` is unique and raises otherwise; else
`"true"`/`"false"` case-insensitively become booleans; else the string is
kept. -/
def coerceSpec (s : PyStr) : Option JsonValue :=
  if pyStartsWith '[' s && pyEndsWith ']' s then
    some ((json_loads s).getD (.str s))
  else if pyIsDigit s then
    some (.int (Int.ofNat (digitsToNat s)))
  else if 0 < s.count '.' && pyIsDigit (removeDots s) then
    if s.count '.' = 1 then pyFloatParse s else none
  else if pyLower s = ('t' :: 'r' :: 'u' :: 'e' :: []) ||
      pyLower s = ('f' :: 'a' :: 'l' :: 's' :: 'e' :: []) then
    some (.bool (pyLower s = ('t' :: 'r' :: 'u' :: 'e' :: [])))
  else some (.str s)

/-- Counterexample to C5 as stated: on `"1.2.3"` the claim's chain (no branch
with exactly one `'.'` applies) leaves the string unchanged, but the code
takes the float branch (its guard only requires at least one `'.'`) and
raises. -/
theorem coerce_claim_fails_on_multidot :
    coerceValue (.str ('1' :: '.' :: '2' :: '.' :: '3' :: [])) = none ∧
    (none : Option JsonValue) ≠ some (.str ('1' :: '.' :: '2' :: '.' :: '3' :: [])) := by
  decide

/-- C5 (amended): for every string leaf value, the coercion `unflatten_dict`
applies is exactly the claim-side chain `coerceSpec`, whose float branch
fires on at least one `'.'` (not exactly one) and raises when the dots are
multiple. -/
theorem coerce_matches_spec_chain (s : PyStr) : coerceValue (.str s) = coerceSpec s := by
  have hc : s.contains '.' = decide (0 < s.count '.') := by
    by_cases h : '.' ∈ s
    · have h2 : (0 : Nat) < s.count '.' := List.count_pos_iff.mpr h
      simp [List.elem_iff, h, h2]
    · have h2 : ¬ (0 : Nat) < s.count '.' := fun hlt => h (List.count_pos_iff.mp hlt)
      simp [List.elem_iff, h, h2]
  rw [coerceValue, coerceSpec, hc]
  by_cases h1 : (pyStartsWith '[' s && pyEndsWith ']' s) = true
  · simp only [h1, if_true]
    cases json_loads s <;> simp [Option.getD]
  · simp only [Bool.not_eq_true] at h1
    simp only [h1, Bool.false_eq_true, if_false]
    by_cases h2 : pyIsDigit s = true
    · simp [h2]
    · simp only [Bool.not_eq_true] at h2
      simp only [h2, Bool.false_eq_true, if_false]
      by_cases h3 : (decide (0 < s.count '.') && pyIsDigit (removeDots s)) = true
      · simp only [h3, if_true]
        by_cases h4 : s.count '.' = 1
        · simp [h4]
        · have hcnt : 0 < s.count '.' := by
            have := (Bool.and_eq_true .. ▸ h3).1
            simpa using this
          have hfp : pyFloatParse s = none := by
            have : ¬ s.count '.' ≤ 1 := by omega
            simp [pyFloatParse, this]
          simp [h4, hfp]
      · simp only [Bool.not_eq_true] at h3
        simp only [h3, Bool.false_eq_true, if_false]

/-! ### C3 — clean_json is idempotent -/

mutual
/-- A value kept by the per-entry action is a fixed point of that action. -/
theorem cleanEntry_idem : ∀ (v c : JsonValue), cleanEntry v = some c → cleanEntry c = some c
  | .obj m, c, h => by
      simp only [cleanEntry] at h
      by_cases he : (cleanPairs m).isEmpty
      · rw [if_pos he] at h
        cases h
      · rw [if_neg he] at h
        obtain rfl : JsonValue.obj (cleanPairs m) = c := Option.some.inj h
        have heq : cleanEntry (JsonValue.obj (cleanPairs m)) =
            if (cleanPairs (cleanPairs m)).isEmpty then none
            else some (.obj (cleanPairs (cleanPairs m))) := rfl
        rw [heq, cleanPairs_idem m, if_neg he]
  | .list xs, c, h => by
      simp only [cleanEntry] at h
      by_cases he : (cleanItems xs).isEmpty
      · rw [if_pos he] at h
        cases h
      · rw [if_neg he] at h
        obtain rfl : JsonValue.list (cleanItems xs) = c := Option.some.inj h
        have heq : cleanEntry (JsonValue.list (cleanItems xs)) =
            if (cleanItems (cleanItems xs)).isEmpty then none
            else some (.list (cleanItems (cleanItems xs))) := rfl
        rw [heq, cleanItems_idem xs, if_neg he]
  | .null, c, h => by simp [cleanEntry, isDroppedScalar] at h
  | .bool b, c, h => by
      obtain rfl : JsonValue.bool b = c := Option.some.inj h
      exact h
  | .int n, c, h => by
      obtain rfl : JsonValue.int n = c := Option.some.inj h
      exact h
  | .float q, c, h => by
      obtain rfl : JsonValue.float q = c := Option.some.inj h
      exact h
  | .str s, c, h => by
      have heq : cleanEntry (JsonValue.str s) =
          if isDroppedScalar (JsonValue.str s) then none else some (JsonValue.str s) := rfl
      rw [heq] at h
      by_cases hd : isDroppedScalar (JsonValue.str s) = true
      · rw [if_pos hd] at h
        cases h
      · rw [if_neg hd] at h
        obtain rfl := Option.some.inj h
        rw [heq, if_neg hd]

/-- Cleaning the entries of an already-cleaned dict changes nothing. -/
theorem cleanPairs_idem : ∀ kvs : JsonDict, cleanPairs (cleanPairs kvs) = cleanPairs kvs
  | [] => rfl
  | (k, v) :: rest => by
      cases hv : cleanEntry v with
      | none =>
          simp only [cleanPairs, hv]
          exact cleanPairs_idem rest
      | some c =>
          simp only [cleanPairs, hv]
          simp only [cleanPairs, cleanEntry_idem v c hv]
          rw [cleanPairs_idem rest]

/-- Cleaning the items of an already-cleaned list changes nothing. -/
theorem cleanItems_idem : ∀ xs : List JsonValue, cleanItems (cleanItems xs) = cleanItems xs
  | [] => rfl
  | x :: rest => by
      by_cases hdx : isDroppedItem x = true
      · simp only [cleanItems, hdx, if_true]
        exact cleanItems_idem rest
      · simp only [Bool.not_eq_true] at hdx
        simp only [cleanItems, hdx, Bool.false_eq_true, if_false]
        have h1 : isDroppedItem (cleanItem x) = false := by
          cases x <;> simp_all [cleanItem, isDroppedItem]
        have h2 : cleanItem (cleanItem x) = cleanItem x := by
          cases x with
          | obj m => simp only [cleanItem, cleanPairs_idem m]
          | _ => rfl
        simp only [cleanItems, h1, Bool.false_eq_true, if_false, h2]
        rw [cleanItems_idem rest]
end

/-- C3: `clean_json` is idempotent on every `JsonValue`. -/
theorem clean_json_idempotent (v : JsonValue) : clean_json (clean_json v) = clean_json v := by
  cases v with
  | obj kvs =>
      simp only [clean_json]
      rw [cleanPairs_idem]
  | _ => rfl

/-! ### C4 — flatten/unflatten round trip: hypotheses and proof machinery -/

/-- Strings on which the coercion chain of `unflatten_dict` is not the
identity (or raises): bracket-delimited, all-digit, dotted-digit, or
`true`/`false` case-insensitively.  The round-trip hypothesis excludes
them. -/
def coercibleStr (s : PyStr) : Bool :=
  (pyStartsWith '[' s && pyEndsWith ']' s) || pyIsDigit s ||
    (s.contains '.' && pyIsDigit (removeDots s)) ||
    pyLower s = ('t' :: 'r' :: 'u' :: 'e' :: []) ||
    pyLower s = ('f' :: 'a' :: 'l' :: 's' :: 'e' :: [])

/-- Scalar leaf values that survive the coercion chain unchanged. -/
def goodScalar : JsonValue → Bool
  | .str s => !coercibleStr s
  | .int _ => true
  | .float _ => true
  | .bool _ => true
  | _ => false

/-- Keys compatible with dotted-path flattening: nonempty and dot-free. -/
def goodKey (k : PyStr) : Bool := !k.isEmpty && !k.contains '.'

mutual
/-- Round-trip-safe values: scalars that coerce to themselves, or nonempty
mappings of round-trip-safe entries (lists, `None` and empty mappings are
excluded; the claim already excludes lists, the rest is forced by the
counterexamples). -/
def goodValue : JsonValue → Bool
  | .obj m => !m.isEmpty && goodEntries m
  | v => goodScalar v
  termination_by structural x => x
/-- Round-trip-safe mappings: distinct, nonempty, dot-free keys with
round-trip-safe values at every level. -/
def goodEntries : JsonDict → Bool
  | [] => true
  | (k, v) :: rest =>
      goodKey k && !(rest.any (fun e => e.1 = k)) && goodValue v && goodEntries rest
  termination_by structural x => x
end

mutual
/-- Leaves of a value, each with the path of keys (below the value) that
reaches it: a non-mapping is one leaf at the empty path, a mapping
contributes its entries' leaves. -/
def leafVal : JsonValue → List (List PyStr × JsonValue)
  | .obj m => leafEntries m
  | v => [([], v)]
  termination_by structural x => x
/-- Leaves of a mapping, each with its full key path. -/
def leafEntries : JsonDict → List (List PyStr × JsonValue)
  | [] => []
  | (k, v) :: rest => (leafVal v).map (fun e => (k :: e.1, e.2)) ++ leafEntries rest
  termination_by structural x => x
end

/-- The flat key that `flatten_dict` assembles for the leaf at `path` below
the prefix `p` (`p` empty at top level). -/
def extKey (p : PyStr) (path : List PyStr) : PyStr :=
  if p.isEmpty then joinParts path else p ++ '.' :: joinParts path

/-- Proof-side form of the `unflatten_dict` loop with the paths already
split: inserts each leaf along its path. -/
def foldInsert (acc : JsonDict) : List (List PyStr × JsonValue) → Option JsonDict
  | [] => some acc
  | (path, v) :: rest =>
      match setPath acc path v with
      | none => none
      | some acc2 => foldInsert acc2 rest

example : goodEntries [(['u'], .obj [(['n'], .str ['x']), (['a'], .int 7)]),
    (['s'], .bool true)] = true := by decide
example : goodEntries [(['u'], .obj [])] = false := by decide
example : goodEntries [(['a', '.', 'b'], .int 1)] = false := by decide

/-- Splitting a dot-free string yields the single chunk appended to the
accumulator. -/
theorem splitOnDotAux_no_dot : ∀ (s acc : PyStr), '.' ∉ s →
    splitOnDotAux s acc = [acc.reverse ++ s]
  | [], acc, _ => by simp [splitOnDotAux]
  | c :: rest, acc, h => by
      have hc : c ≠ '.' := fun he => h (he ▸ List.mem_cons_self ..)
      rw [splitOnDotAux, if_neg hc, splitOnDotAux_no_dot rest (c :: acc)
        (fun hm => h (List.mem_cons_of_mem _ hm))]
      simp

/-- Splitting at the first dot after a dot-free chunk. -/
theorem splitOnDotAux_chunk : ∀ (p r acc : PyStr), '.' ∉ p →
    splitOnDotAux (p ++ '.' :: r) acc = (acc.reverse ++ p) :: splitOnDotAux r []
  | [], r, acc, _ => by simp [splitOnDotAux]
  | c :: p, r, acc, h => by
      have hc : c ≠ '.' := fun he => h (he ▸ List.mem_cons_self ..)
      rw [List.cons_append, splitOnDotAux, if_neg hc, splitOnDotAux_chunk p r (c :: acc)
        (fun hm => h (List.mem_cons_of_mem _ hm))]
      simp

/-- Splitting on `'.'` undoes joining with `'.'` when no component contains a
dot. -/
theorem splitOnDot_joinParts : ∀ path : List PyStr, path ≠ [] →
    (∀ comp ∈ path, '.' ∉ comp) → splitOnDot (joinParts path) = path
  | [], h, _ => absurd rfl h
  | [p], _, hc => by
      rw [joinParts, splitOnDot, splitOnDotAux_no_dot p [] (hc p (List.mem_cons_self ..))]
      simp
  | p :: p2 :: ps, _, hc => by
      have hj : joinParts (p :: p2 :: ps) = p ++ '.' :: joinParts (p2 :: ps) := rfl
      rw [hj, splitOnDot, splitOnDotAux_chunk p _ [] (hc p (List.mem_cons_self ..))]
      have := splitOnDot_joinParts (p2 :: ps) (by simp)
        (fun comp hm => hc comp (List.mem_cons_of_mem _ hm))
      rw [splitOnDot] at this
      rw [this]
      simp

/-- `joinParts` is injective on dot-free nonempty component lists. -/
theorem joinParts_inj {path1 path2 : List PyStr} (h1 : path1 ≠ [])
    (hc1 : ∀ comp ∈ path1, '.' ∉ comp) (h2 : path2 ≠ [])
    (hc2 : ∀ comp ∈ path2, '.' ∉ comp) (he : joinParts path1 = joinParts path2) :
    path1 = path2 := by
  have := congrArg splitOnDot he
  rwa [splitOnDot_joinParts path1 h1 hc1, splitOnDot_joinParts path2 h2 hc2] at this

/-- Prefixing a joined path into a longer joined path. -/
theorem joinParts_cons_extend (p k : PyStr) (path : List PyStr) :
    joinParts ((p ++ '.' :: k) :: path) = p ++ '.' :: joinParts (k :: path) := by
  cases path with
  | nil => rfl
  | cons q qs => simp [joinParts]

/-- `extKey` is injective on dot-free nonempty paths, for a fixed prefix. -/
theorem extKey_inj {p : PyStr} {path1 path2 : List PyStr} (h1 : path1 ≠ [])
    (hc1 : ∀ comp ∈ path1, '.' ∉ comp) (h2 : path2 ≠ [])
    (hc2 : ∀ comp ∈ path2, '.' ∉ comp) (he : extKey p path1 = extKey p path2) :
    path1 = path2 := by
  by_cases hp : p.isEmpty
  · rw [extKey, extKey, if_pos hp, if_pos hp] at he
    exact joinParts_inj h1 hc1 h2 hc2 he
  · rw [extKey, extKey, if_neg hp, if_neg hp] at he
    have := List.append_cancel_left he
    exact joinParts_inj h1 hc1 h2 hc2 (List.cons.inj this).2

/-! ### Association-list lemmas -/

/-- Setting a fresh key appends the binding at the end. -/
theorem assocSet_fresh : ∀ (d : JsonDict) (k : PyStr) (v : JsonValue),
    assocLookup d k = none → assocSet d k v = d ++ [(k, v)]
  | [], k, v, _ => rfl
  | (k0, v0) :: rest, k, v, h => by
      rw [assocLookup] at h
      by_cases hk : k0 = k
      · rw [if_pos hk] at h
        cases h
      · rw [assocSet, if_neg hk, assocSet_fresh rest k v (by rwa [if_neg hk] at h)]
        simp

/-- Re-assigning the value a key already has is the identity. -/
theorem assocSet_same : ∀ (d : JsonDict) (k : PyStr) (v : JsonValue),
    assocLookup d k = some v → assocSet d k v = d
  | [], k, v, h => by cases h
  | (k0, v0) :: rest, k, v, h => by
      rw [assocLookup] at h
      by_cases hk : k0 = k
      · rw [if_pos hk] at h
        rw [assocSet, if_pos hk, Option.some.inj h]
      · rw [if_neg hk] at h
        rw [assocSet, if_neg hk, assocSet_same rest k v h]

/-- Two assignments to the same key collapse to the second. -/
theorem assocSet_set : ∀ (d : JsonDict) (k : PyStr) (a b : JsonValue),
    assocSet (assocSet d k a) k b = assocSet d k b
  | [], k, a, b => by simp [assocSet]
  | (k0, v0) :: rest, k, a, b => by
      by_cases hk : k0 = k
      · simp [assocSet, hk]
      · simp only [assocSet, if_neg hk]
        rw [assocSet_set rest k a b]

/-- Looking up the key just assigned. -/
theorem assocLookup_set_self : ∀ (d : JsonDict) (k : PyStr) (v : JsonValue),
    assocLookup (assocSet d k v) k = some v
  | [], k, v => by simp [assocSet, assocLookup]
  | (k0, v0) :: rest, k, v => by
      by_cases hk : k0 = k
      · simp [assocSet, assocLookup, hk]
      · simp only [assocSet, if_neg hk, assocLookup]
        exact assocLookup_set_self rest k v

/-- Lookup in an appended dict: the left part wins. -/
theorem assocLookup_append : ∀ (d1 d2 : JsonDict) (k : PyStr),
    assocLookup (d1 ++ d2) k =
      match assocLookup d1 k with
      | some v => some v
      | none => assocLookup d2 k
  | [], d2, k => rfl
  | (k0, v0) :: rest, d2, k => by
      by_cases hk : k0 = k
      · simp [assocLookup, hk]
      · simp only [List.cons_append, assocLookup, if_neg hk]
        exact assocLookup_append rest d2 k

/-- Folding fresh, pairwise-distinct bindings into a dict appends them in
order (the `dict(items)` collapse). -/
theorem foldl_assocSet_fresh : ∀ (l : JsonDict) (acc : JsonDict),
    (∀ e ∈ l, assocLookup acc e.1 = none) →
    List.Pairwise (fun a b => a.1 ≠ b.1) l →
    l.foldl (fun d kv => assocSet d kv.1 kv.2) acc = acc ++ l
  | [], acc, _, _ => by simp
  | (k, v) :: rest, acc, hfresh, hpw => by
      rw [List.foldl_cons, assocSet_fresh acc k v (hfresh (k, v) (List.mem_cons_self ..))]
      rw [foldl_assocSet_fresh rest (acc ++ [(k, v)]) ?_ (List.pairwise_cons.mp hpw).2]
      · simp
      · intro e he
        rw [assocLookup_append, hfresh e (List.mem_cons_of_mem _ he)]
        have hne : k ≠ e.1 := (List.pairwise_cons.mp hpw).1 e he
        simp [assocLookup, hne]

/-- `dict(items)` is the identity on items with pairwise-distinct keys. -/
theorem dictOfItems_eq_self (l : JsonDict) (hpw : List.Pairwise (fun a b => a.1 ≠ b.1) l) :
    dictOfItems l = l := by
  rw [dictOfItems, foldl_assocSet_fresh l [] (fun e _ => rfl) hpw]
  simp

/-! ### Leaf structure of a round-trip-safe mapping -/

/-- Unpacking `goodKey`. -/
theorem goodKey_spec {k : PyStr} (h : goodKey k = true) : k ≠ [] ∧ '.' ∉ k := by
  simp only [goodKey, Bool.and_eq_true, Bool.not_eq_true'] at h
  obtain ⟨h1, h2⟩ := h
  constructor
  · simpa [List.isEmpty_iff] using h1
  · intro hm
    rw [(by simpa [List.elem_iff] using hm : k.contains '.' = true)] at h2
    cases h2

/-- Unpacking `goodEntries` at a cons cell. -/
theorem goodEntries_cons {k : PyStr} {v : JsonValue} {rest : JsonDict}
    (h : goodEntries ((k, v) :: rest) = true) :
    goodKey k = true ∧ (∀ e ∈ rest, e.1 ≠ k) ∧ goodValue v = true ∧
      goodEntries rest = true := by
  simp only [goodEntries, Bool.and_eq_true, Bool.not_eq_true'] at h
  obtain ⟨⟨⟨h1, h2⟩, h3⟩, h4⟩ := h
  refine ⟨h1, ?_, h3, h4⟩
  intro e he heq
  have : rest.any (fun e => e.1 = k) = true := List.any_eq_true.mpr ⟨e, he, by simp [heq]⟩
  rw [this] at h2
  cases h2

/-- Unpacking `goodValue` at a mapping. -/
theorem goodValue_obj {m : JsonDict} (h : goodValue (.obj m) = true) :
    m ≠ [] ∧ goodEntries m = true := by
  simp only [goodValue, Bool.and_eq_true, Bool.not_eq_true'] at h
  obtain ⟨h1, h2⟩ := h
  exact ⟨by simpa [List.isEmpty_iff] using h1, h2⟩

mutual
/-- Leaves of a round-trip-safe value: dot-free nonempty path components and
coercion-safe scalar values. -/
theorem leafVal_good : ∀ (v : JsonValue), goodValue v = true → ∀ e ∈ leafVal v,
    (∀ comp ∈ e.1, comp ≠ [] ∧ '.' ∉ comp) ∧ goodScalar e.2 = true
  | .obj m, h, e, he => by
      obtain ⟨_, hm⟩ := goodValue_obj h
      obtain ⟨⟨_, hcomp⟩, hscal⟩ := leafEntries_good m hm e (by simpa [leafVal] using he)
      exact ⟨hcomp, hscal⟩
  | .null, h, e, he => by cases h
  | .bool b, h, e, he => by
      have hlv : leafVal (JsonValue.bool b) = [([], JsonValue.bool b)] := rfl
      rw [hlv] at he
      obtain rfl := List.mem_singleton.mp he
      exact ⟨by simp, h⟩
  | .int n, h, e, he => by
      have hlv : leafVal (JsonValue.int n) = [([], JsonValue.int n)] := rfl
      rw [hlv] at he
      obtain rfl := List.mem_singleton.mp he
      exact ⟨by simp, h⟩
  | .float q, h, e, he => by
      have hlv : leafVal (JsonValue.float q) = [([], JsonValue.float q)] := rfl
      rw [hlv] at he
      obtain rfl := List.mem_singleton.mp he
      exact ⟨by simp, h⟩
  | .str s, h, e, he => by
      have hlv : leafVal (JsonValue.str s) = [([], JsonValue.str s)] := rfl
      rw [hlv] at he
      obtain rfl := List.mem_singleton.mp he
      exact ⟨by simp, h⟩
  | .list xs, h, e, he => by cases h

/-- Leaves of a round-trip-safe mapping: nonempty paths of dot-free nonempty
components and coercion-safe scalar values. -/
theorem leafEntries_good : ∀ (d : JsonDict), goodEntries d = true → ∀ e ∈ leafEntries d,
    (e.1 ≠ [] ∧ ∀ comp ∈ e.1, comp ≠ [] ∧ '.' ∉ comp) ∧ goodScalar e.2 = true
  | [], _, e, he => by cases he
  | (k, v) :: rest, h, e, he => by
      obtain ⟨hk, _, hv, hrest⟩ := goodEntries_cons h
      rw [leafEntries] at he
      rcases List.mem_append.mp he with hin | hin
      · obtain ⟨e0, he0, rfl⟩ := List.mem_map.mp hin
        obtain ⟨hcomp, hscal⟩ := leafVal_good v hv e0 he0
        refine ⟨⟨by simp, ?_⟩, hscal⟩
        intro comp hc
        rcases List.mem_cons.mp hc with rfl | hc2
        · exact goodKey_spec hk
        · exact hcomp comp hc2
      · exact leafEntries_good rest hrest e hin
end

mutual
/-- A round-trip-safe value has at least one leaf. -/
theorem leafVal_ne_nil : ∀ (v : JsonValue), goodValue v = true → leafVal v ≠ []
  | .obj m, h => by
      obtain ⟨hne, hm⟩ := goodValue_obj h
      have hlv : leafVal (JsonValue.obj m) = leafEntries m := rfl
      rw [hlv]
      exact leafEntries_ne_nil m hm hne
  | .null, h => by cases h
  | .bool b, _ => fun h => nomatch h
  | .int n, _ => fun h => nomatch h
  | .float q, _ => fun h => nomatch h
  | .str s, _ => fun h => nomatch h
  | .list xs, h => by cases h

/-- A nonempty round-trip-safe mapping has at least one leaf. -/
theorem leafEntries_ne_nil : ∀ (d : JsonDict), goodEntries d = true → d ≠ [] →
    leafEntries d ≠ []
  | [], _, hne => absurd rfl hne
  | (k, v) :: rest, h, _ => by
      obtain ⟨_, _, hv, _⟩ := goodEntries_cons h
      rw [leafEntries]
      intro hcontra
      rcases List.append_eq_nil.mp hcontra with ⟨hl, _⟩
      exact leafVal_ne_nil v hv (List.map_eq_nil_iff.mp hl)
end

/-- Every leaf path of a mapping starts with one of its keys. -/
theorem leafEntries_head : ∀ (d : JsonDict), ∀ e ∈ leafEntries d,
    ∃ k p2, e.1 = k :: p2 ∧ k ∈ d.map Prod.fst
  | [], e, he => by cases he
  | (k, v) :: rest, e, he => by
      rw [leafEntries] at he
      rcases List.mem_append.mp he with hin | hin
      · obtain ⟨e0, _, rfl⟩ := List.mem_map.mp hin
        exact ⟨k, e0.1, rfl, List.mem_map.mpr ⟨(k, v), List.mem_cons_self .., rfl⟩⟩
      · obtain ⟨k2, p2, hp, hk2⟩ := leafEntries_head rest e hin
        refine ⟨k2, p2, hp, ?_⟩
        rw [List.map_cons]
        exact List.mem_cons_of_mem _ hk2

mutual
/-- Leaf paths of a round-trip-safe value are pairwise distinct. -/
theorem leafVal_nodup : ∀ (v : JsonValue), goodValue v = true →
    ((leafVal v).map Prod.fst).Nodup
  | .obj m, h => by
      have hlv : leafVal (JsonValue.obj m) = leafEntries m := rfl
      rw [hlv]
      exact leafEntries_nodup m (goodValue_obj h).2
  | .null, h => by cases h
  | .bool b, _ => List.nodup_singleton _
  | .int n, _ => List.nodup_singleton _
  | .float q, _ => List.nodup_singleton _
  | .str s, _ => List.nodup_singleton _
  | .list xs, h => by cases h

/-- Leaf paths of a round-trip-safe mapping are pairwise distinct. -/
theorem leafEntries_nodup : ∀ (d : JsonDict), goodEntries d = true →
    ((leafEntries d).map Prod.fst).Nodup
  | [], _ => List.nodup_nil
  | (k, v) :: rest, h => by
      obtain ⟨hk, hdist, hv, hrest⟩ := goodEntries_cons h
      rw [leafEntries, List.map_append, List.nodup_append]
      refine ⟨?_, leafEntries_nodup rest hrest, ?_⟩
      · have hmm : ((leafVal v).map (fun e => (k :: e.1, e.2))).map Prod.fst =
            ((leafVal v).map Prod.fst).map (fun p => k :: p) := by
          simp [Function.comp]
        rw [hmm]
        exact (leafVal_nodup v hv).map (fun a b hab => (List.cons.inj hab).2)
      · intro p hp1 hp2
        obtain ⟨e1, he1, rfl⟩ := List.mem_map.mp hp1
        obtain ⟨e0, _, rfl⟩ := List.mem_map.mp he1
        obtain ⟨e2, he2, hp⟩ := List.mem_map.mp hp2
        obtain ⟨k2, p2, hpath, hkey⟩ := leafEntries_head rest e2 he2
        obtain ⟨e3, he3, rfl⟩ := List.mem_map.mp hkey
        have : e3.1 = k := by
          have := hpath ▸ hp
          exact (List.cons.inj this.symm).1.symm
        exact hdist e3 he3 this
end

/-- The assembled key of one level equals the extended key of the full path. -/
theorem joinParts_newKey (p k : PyStr) (path : List PyStr) :
    joinParts ((if p.isEmpty then k else p ++ '.' :: k) :: path) = extKey p (k :: path) := by
  by_cases hp : p.isEmpty
  · rw [if_pos hp, extKey, if_pos hp]
  · rw [if_neg hp, extKey, if_neg hp]
    cases path with
    | nil => rfl
    | cons q qs => rw [joinParts_cons_extend]

mutual
/-- The items contributed by a round-trip-safe entry value are its leaves,
keyed by joining the assembled key with each leaf path. -/
theorem flattenEntry_leaves : ∀ (v : JsonValue) (p : PyStr), goodValue v = true → p ≠ [] →
    flattenEntry v p = (leafVal v).map (fun e => (joinParts (p :: e.1), e.2))
  | .obj m, p, h, hp => by
      obtain ⟨hm0, hm⟩ := goodValue_obj h
      have hfe : flattenEntry (JsonValue.obj m) p = dictOfItems (flattenItems m p) := rfl
      have hlv : leafVal (JsonValue.obj m) = leafEntries m := rfl
      rw [hfe, hlv, flattenItems_leaves m p hm]
      have hmap : (leafEntries m).map (fun e => (extKey p e.1, e.2)) =
          (leafEntries m).map (fun e => (joinParts (p :: e.1), e.2)) := by
        refine List.map_congr_left ?_
        intro e he
        obtain ⟨⟨hne, _⟩, _⟩ := leafEntries_good m hm e he
        rcases e with ⟨path, v0⟩
        cases path with
        | nil => exact absurd rfl hne
        | cons q qs =>
            rw [extKey, if_neg (by simpa [List.isEmpty_iff] using hp)]
            cases qs <;> rfl
      rw [hmap]
      refine dictOfItems_eq_self _ ?_
      have hpw0 : List.Pairwise (fun a b => a.1 ≠ b.1) (leafEntries m) := by
        have := leafEntries_nodup m hm
        rw [List.Nodup, List.pairwise_map] at this
        exact this
      rw [List.pairwise_map]
      refine List.Pairwise.imp_of_mem ?_ hpw0
      intro a b ha hb hne heq
      obtain ⟨⟨hane, hacomp⟩, _⟩ := leafEntries_good m hm a ha
      obtain ⟨⟨hbne, hbcomp⟩, _⟩ := leafEntries_good m hm b hb
      have ha2 : joinParts (p :: a.1) = p ++ '.' :: joinParts a.1 := by
        cases ha1 : a.1 with
        | nil => exact absurd ha1 hane
        | cons q qs => cases qs <;> rfl
      have hb2 : joinParts (p :: b.1) = p ++ '.' :: joinParts b.1 := by
        cases hb1 : b.1 with
        | nil => exact absurd hb1 hbne
        | cons q qs => cases qs <;> rfl
      rw [ha2, hb2] at heq
      have hj := (List.cons.inj (List.append_cancel_left heq)).2
      exact hne (joinParts_inj hane (fun c hc => (hacomp c hc).2) hbne
        (fun c hc => (hbcomp c hc).2) hj)
  | .null, p, h, _ => by cases h
  | .bool b, p, _, _ => rfl
  | .int n, p, _, _ => rfl
  | .float q, p, _, _ => rfl
  | .str s, p, _, _ => rfl
  | .list xs, p, h, _ => by cases h

/-- The items accumulated from a round-trip-safe mapping are its leaves,
keyed by the extension of the parent prefix with each leaf path. -/
theorem flattenItems_leaves : ∀ (d : JsonDict) (p : PyStr), goodEntries d = true →
    flattenItems d p = (leafEntries d).map (fun e => (extKey p e.1, e.2))
  | [], p, _ => rfl
  | (k, v) :: rest, p, h => by
      obtain ⟨hk, _, hv, hrest⟩ := goodEntries_cons h
      have hnk : (if p.isEmpty then k else p ++ '.' :: k) ≠ [] := by
        by_cases hp : p.isEmpty
        · rw [if_pos hp]
          exact (goodKey_spec hk).1
        · rw [if_neg hp]
          simp [List.isEmpty_iff] at hp
          exact List.append_ne_nil_of_left_ne_nil hp _
      have heq : flattenItems ((k, v) :: rest) p =
          flattenEntry v (if p.isEmpty then k else p ++ '.' :: k) ++ flattenItems rest p := rfl
      rw [heq, flattenEntry_leaves v _ hv hnk, flattenItems_leaves rest p hrest, leafEntries,
        List.map_append, List.map_map]
      congr 1
      refine List.map_congr_left ?_
      intro e _
      simp only [Function.comp]
      rw [joinParts_newKey]
end

/-- `flatten_dict` of a round-trip-safe mapping lists its leaves, keyed by
their dot-joined paths, in depth-first order. -/
theorem flatten_dict_leaves (d : JsonDict) (h : goodEntries d = true) :
    flatten_dict d [] = (leafEntries d).map (fun e => (joinParts e.1, e.2)) := by
  rw [flatten_dict, flattenItems_leaves d [] h]
  have hmap : (leafEntries d).map (fun e => (extKey [] e.1, e.2)) =
      (leafEntries d).map (fun e => (joinParts e.1, e.2)) := by
    refine List.map_congr_left ?_
    intro e _
    simp [extKey]
  rw [hmap]
  refine dictOfItems_eq_self _ ?_
  have hpw0 : List.Pairwise (fun a b => a.1 ≠ b.1) (leafEntries d) := by
    have := leafEntries_nodup d h
    rw [List.Nodup, List.pairwise_map] at this
    exact this
  rw [List.pairwise_map]
  refine List.Pairwise.imp_of_mem ?_ hpw0
  intro a b ha hb hne heq
  obtain ⟨⟨hane, hacomp⟩, _⟩ := leafEntries_good d h a ha
  obtain ⟨⟨hbne, hbcomp⟩, _⟩ := leafEntries_good d h b hb
  exact hne (joinParts_inj hane (fun c hc => (hacomp c hc).2) hbne
    (fun c hc => (hbcomp c hc).2) heq)

/-- The coercion chain is the identity on coercion-safe scalars. -/
theorem coerceValue_goodScalar : ∀ (v : JsonValue), goodScalar v = true → coerceValue v = some v
  | .null, h => by cases h
  | .list xs, h => by cases h
  | .obj m, h => by cases h
  | .bool b, _ => rfl
  | .int n, _ => rfl
  | .float q, _ => rfl
  | .str s, h => by
      have h2 : coercibleStr s = false := by
        simpa [goodScalar] using h
      simp only [coercibleStr, Bool.or_eq_false_iff] at h2
      obtain ⟨⟨⟨⟨hb, hd⟩, hf⟩, ht⟩, hff⟩ := h2
      rw [coerceValue]
      simp only [hb, hd, hf, ht, hff, Bool.false_eq_true, if_false, Bool.or_self]

/-- `foldInsert` distributes over appended leaf lists. -/
theorem foldInsert_append : ∀ (l1 l2 : List (List PyStr × JsonValue)) (acc : JsonDict),
    foldInsert acc (l1 ++ l2) =
      match foldInsert acc l1 with
      | none => none
      | some a => foldInsert a l2
  | [], l2, acc => rfl
  | (p, v) :: l1, l2, acc => by
      simp only [List.cons_append, foldInsert]
      cases setPath acc p v with
      | none => rfl
      | some acc2 => exact foldInsert_append l1 l2 acc2

/-- Inserting leaves under a key that already holds a sub-dict descends into
that sub-dict. -/
theorem foldInsert_under (k : PyStr) : ∀ (es : List (List PyStr × JsonValue))
    (acc s0 : JsonDict), (∀ e ∈ es, e.1 ≠ []) → assocLookup acc k = some (.obj s0) →
    foldInsert acc (es.map (fun e => (k :: e.1, e.2))) =
      (foldInsert s0 es).map (fun s => assocSet acc k (.obj s))
  | [], acc, s0, _, hl => by
      simp only [List.map_nil, foldInsert, Option.map_some']
      rw [assocSet_same acc k _ hl]
  | (p, v) :: rest, acc, s0, hne, hl => by
      have hp : p ≠ [] := (hne (p, v) (List.mem_cons_self ..))
      have hsp : setPath acc (k :: p) v =
          (setPath s0 p v).map (fun s2 => assocSet acc k (.obj s2)) := by
        cases p with
        | nil => exact absurd rfl hp
        | cons q qs => simp only [setPath, hl]
      simp only [List.map_cons, foldInsert, hsp]
      cases hspv : setPath s0 p v with
      | none => rfl
      | some s1 =>
          simp only [Option.map_some']
          rw [foldInsert_under k rest (assocSet acc k (.obj s1)) s1
            (fun e he => hne e (List.mem_cons_of_mem _ he)) (assocLookup_set_self ..)]
          have hfun : (fun s => assocSet (assocSet acc k (.obj s1)) k (.obj s)) =
              (fun s => assocSet acc k (JsonValue.obj s)) := by
            funext s
            rw [assocSet_set]
          rw [hfun]

/-- Inserting the leaves of a sub-dict under a fresh key builds exactly that
sub-dict at the key. -/
theorem foldInsert_fresh (k : PyStr) : ∀ (es : List (List PyStr × JsonValue))
    (acc : JsonDict), (∀ e ∈ es, e.1 ≠ []) → assocLookup acc k = none → es ≠ [] →
    foldInsert acc (es.map (fun e => (k :: e.1, e.2))) =
      (foldInsert [] es).map (fun s => assocSet acc k (.obj s))
  | [], _, _, _, hne => absurd rfl hne
  | (p, v) :: rest, acc, hnep, hl, _ => by
      have hp : p ≠ [] := (hnep (p, v) (List.mem_cons_self ..))
      have hsp : setPath acc (k :: p) v =
          (setPath ([] : JsonDict) p v).map (fun s2 => assocSet acc k (.obj s2)) := by
        cases p with
        | nil => exact absurd rfl hp
        | cons q qs => simp only [setPath, hl]
      simp only [List.map_cons, foldInsert, hsp]
      cases hspv : setPath ([] : JsonDict) p v with
      | none => rfl
      | some s1 =>
          simp only [Option.map_some']
          rw [foldInsert_under k rest (assocSet acc k (.obj s1)) s1
            (fun e he => hnep e (List.mem_cons_of_mem _ he)) (assocLookup_set_self ..)]
          have hfun : (fun s => assocSet (assocSet acc k (.obj s1)) k (.obj s)) =
              (fun s => assocSet acc k (JsonValue.obj s)) := by
            funext s
            rw [assocSet_set]
          rw [hfun]

/-- Inserting all leaves of a round-trip-safe mapping into a dict with
disjoint keys appends the mapping, rebuilt exactly. -/
theorem foldInsert_leafEntries : ∀ (d acc : JsonDict), goodEntries d = true →
    (∀ e ∈ d, assocLookup acc e.1 = none) →
    foldInsert acc (leafEntries d) = some (acc ++ d)
  | [], acc, _, _ => by simp [leafEntries, foldInsert]
  | (k, v) :: rest, acc, h, hfresh => by
      obtain ⟨hk, hdist, hv, hrest⟩ := goodEntries_cons h
      have hlk : assocLookup acc k = none := hfresh (k, v) (List.mem_cons_self ..)
      rw [leafEntries, foldInsert_append]
      by_cases hobj : ∃ m, v = JsonValue.obj m
      · obtain ⟨m, rfl⟩ := hobj
        obtain ⟨hm0, hm⟩ := goodValue_obj hv
        have hlv : leafVal (JsonValue.obj m) = leafEntries m := rfl
        rw [hlv, foldInsert_fresh k (leafEntries m) acc
          (fun e he => (leafEntries_good m hm e he).1.1) hlk (leafEntries_ne_nil m hm hm0),
          foldInsert_leafEntries m [] hm (fun e _ => rfl)]
        simp only [List.nil_append, Option.map_some']
        rw [assocSet_fresh acc k _ hlk]
        rw [foldInsert_leafEntries rest (acc ++ [(k, JsonValue.obj m)]) hrest ?_]
        · simp
        · intro e he
          rw [assocLookup_append, hfresh e (List.mem_cons_of_mem _ he)]
          have hne : ¬ k = e.1 := fun hkk => hdist e he hkk.symm
          simp [assocLookup, hne]
      · have hlv : leafVal v = [([], v)] := by
          cases v <;> first
            | rfl
            | exact absurd ⟨_, rfl⟩ hobj
        rw [hlv]
        have h1 : foldInsert acc [(([k] : List PyStr), v)] = some (assocSet acc k v) := rfl
        simp only [List.map_cons, List.map_nil, h1]
        rw [assocSet_fresh acc k v hlk]
        rw [foldInsert_leafEntries rest (acc ++ [(k, v)]) hrest ?_]
        · simp
        · intro e he
          rw [assocLookup_append, hfresh e (List.mem_cons_of_mem _ he)]
          have hne : ¬ k = e.1 := fun hkk => hdist e he hkk.symm
          simp [assocLookup, hne]

/-- The `unflatten_dict` loop on dot-joined leaf keys with coercion-safe
values is the path-wise insertion of those leaves. -/
theorem unflattenSteps_joined : ∀ (es : List (List PyStr × JsonValue)) (acc : JsonDict),
    (∀ e ∈ es, (e.1 ≠ [] ∧ ∀ comp ∈ e.1, '.' ∉ comp) ∧ goodScalar e.2 = true) →
    unflattenSteps (es.map (fun e => (joinParts e.1, e.2))) acc = foldInsert acc es
  | [], acc, _ => rfl
  | (p, v) :: rest, acc, hgood => by
      obtain ⟨⟨hp, hcomp⟩, hscal⟩ := hgood (p, v) (List.mem_cons_self ..)
      simp only [List.map_cons, unflattenSteps, coerceValue_goodScalar v hscal,
        splitOnDot_joinParts p hp hcomp]
      cases hsp : setPath acc p v with
      | none => simp [foldInsert, hsp]
      | some acc2 =>
          simp only [foldInsert, hsp]
          exact unflattenSteps_joined rest acc2 (fun e he => hgood e (List.mem_cons_of_mem _ he))

/-- C4 (amended): `unflatten_dict` undoes `flatten_dict` on every nested
mapping whose leaves are strings, integers, floats and booleans (no lists,
no `None`), provided additionally that no string leaf is coercible
(digit-only, dotted-digit, `true`/`false` case-insensitively, or
bracket-delimited), that every key is nonempty, dot-free and distinct within
its mapping, and that every nested mapping is nonempty. -/
theorem flatten_unflatten_roundtrip (d : JsonDict) (h : goodEntries d = true) :
    unflatten_dict (flatten_dict d []) = some d := by
  rw [flatten_dict_leaves d h, unflatten_dict, unflattenSteps_joined (leafEntries d) [] ?_,
    foldInsert_leafEntries d [] h (fun e _ => rfl)]
  · simp
  · intro e he
    obtain ⟨⟨hne, hcomp⟩, hscal⟩ := leafEntries_good d h e he
    exact ⟨⟨hne, fun c hc => (hcomp c hc).2⟩, hscal⟩

/-- Counterexample to C4 as stated: the scalar-only mapping whose single key
contains the separator, `{"a.b": 1}`, is not recovered: the round trip
returns the nested `{"a": {"b": 1}}`. -/
theorem flatten_unflatten_roundtrip_fails_on_dotted_key :
    unflatten_dict (flatten_dict [(('a' :: '.' :: 'b' :: []), JsonValue.int 1)] []) =
      some [(['a'], JsonValue.obj [(['b'], JsonValue.int 1)])] ∧
    some [(['a'], JsonValue.obj [(['b'], JsonValue.int 1)])] ≠
      some ([(('a' :: '.' :: 'b' :: []), JsonValue.int 1)] : JsonDict) := by decide

/-- Witness for C4 (amended) at a concrete two-level mapping. -/
theorem flatten_unflatten_roundtrip_witness :
    unflatten_dict (flatten_dict [(['u'], JsonValue.obj [(['n'], .str ['x']), (['a'], .int 7)]),
      (['s'], .bool true)] []) =
    some [(['u'], JsonValue.obj [(['n'], .str ['x']), (['a'], .int 7)]),
      (['s'], .bool true)] :=
  flatten_unflatten_roundtrip _ (by decide)
